import Mathlib

set_option autoImplicit false

namespace GitLite

/-
Verification of the GitLite state-reconciliation core
(src/src-tauri/src/main.rs) against its natural-language specification.

The Rust source drives a real repository through the libgit2 bindings
(`git2` crate).  The shallow embedding below models the repository data
the code consults:

* trees, the index and the working tree are association lists
  `path -> blob content` (file modes, renames and copies are not modeled:
  the status queries in the source never enable rename/copy detection,
  so `INDEX_RENAMED` / `WT_RENAMED` / `Delta::Renamed` / `Delta::Copied`
  never arise from the modeled states, and without modes `WT_TYPECHANGE`
  cannot arise either);
* the commit graph is an association list `oid -> parent oids`
  (oids are `Nat`; messages are tracked in a parallel list where a claim
  needs them);
* libgit2 primitives (status flags, index-to-workdir deltas,
  `graph_ahead_behind`, `merge_base`, `git_reference_set_target`)
  are given their documented semantics as Lean functions over that state;
* the network outcome of a push and the conflict outcome of
  `merge_commits` are oracle booleans carried in the state, since they
  are decided by the remote / by libgit2's file-level merge, not by this
  repository's code.

Every function named after a Rust function is a line-by-line translation
of that function's logic over the modeled state.
-/

/-! ## Commit graphs and reachability

A commit store is an association list from commit oid to its parent
oids.  `Reaches g a b` is the DAG-reachability relation ("`b` is `a`
itself or an ancestor of `a`"); `reachesB` is the executable,
fuel-bounded version used to model libgit2's graph queries. -/

/-- Commit store: list of (oid, parent oids), oldest first. -/
abbrev Graph := List (Nat × List Nat)

/-- All commit oids present in the store. -/
def goids (g : Graph) : List Nat := g.map Prod.fst

/-- Parent oids of a commit; a commit absent from the store has no
recorded parents. -/
def parentsOf (g : Graph) (a : Nat) : List Nat := (g.lookup a).getD []

/-- One parent edge of the commit DAG. -/
def Step (g : Graph) (a b : Nat) : Prop := b ∈ parentsOf g a

/-- Propositional reachability along parent edges (reflexive). -/
def Reaches (g : Graph) : Nat → Nat → Prop := Relation.ReflTransGen (Step g)

/-- Fuel-bounded executable reachability along parent edges. -/
def reachesB (g : Graph) : Nat → Nat → Nat → Bool
  | 0, a, b => a == b
  | f + 1, a, b => a == b || (parentsOf g a).any fun p => reachesB g f p b

/-- Position of a commit in the store (store length if absent). -/
def grank (g : Graph) (a : Nat) : Nat := g.findIdx fun e => e.1 == a

/-- Well-formed store: every recorded parent edge goes to a commit
that occurs strictly earlier in the list (in particular the graph is
acyclic and every parent of a stored commit is stored). -/
def WfG (g : Graph) : Prop := ∀ e ∈ g, ∀ p ∈ e.2, grank g p < grank g e.1

instance (g : Graph) : Decidable (WfG g) := by
  unfold WfG; infer_instance

/-- Executable reachability with the canonical fuel used by the models. -/
def reach (g : Graph) (a b : Nat) : Bool := reachesB g g.length a b

/-! ## Status classifier (`get_workspace_status`, main.rs lines 596-756)

The repository state the classifier consults: the tree of the HEAD
commit, the index, and the working tree, each a finite map
`path -> blob content` represented as an association list. -/

/-- Association list from path to blob content. -/
abbrev PathMap := List (String × String)

/-- Mirror of the Rust `FileChange` struct (additions/deletions are
`i32` in the source; only 0 and 1 ever occur). -/
structure FileChange where
  path : String
  status : String
  additions : Int
  deletions : Int
  deriving Repr, DecidableEq

/-- Mirror of the Rust `WorkspaceStatus` struct. -/
structure WorkspaceStatus where
  staged_files : List FileChange
  unstaged_files : List FileChange
  untracked_files : List String
  deriving Repr, DecidableEq

/-- Repository state read by the status classifier. -/
structure RepoState where
  headTree : PathMap
  indexT : PathMap
  workdir : PathMap
  deriving Repr, DecidableEq

/-- Membership of a path in a path map (first-match lookup, as in the
on-disk structures where paths are unique keys). -/
def hasPath (t : PathMap) (p : String) : Bool := (t.lookup p).isSome

/-- libgit2 status flag `INDEX_NEW`: in the index, not in HEAD's tree. -/
def idxNew (s : RepoState) (p : String) : Bool :=
  hasPath s.indexT p && !hasPath s.headTree p

/-- libgit2 status flag `INDEX_MODIFIED`: in both HEAD's tree and the
index with different contents. -/
def idxMod (s : RepoState) (p : String) : Bool :=
  match s.headTree.lookup p, s.indexT.lookup p with
  | some h, some i => h != i
  | _, _ => false

/-- libgit2 status flag `INDEX_DELETED`: in HEAD's tree, not in the
index. -/
def idxDel (s : RepoState) (p : String) : Bool :=
  hasPath s.headTree p && !hasPath s.indexT p

/-- libgit2 status flag `WT_NEW`: in the working tree, not in the
index. -/
def wtNew (s : RepoState) (p : String) : Bool :=
  hasPath s.workdir p && !hasPath s.indexT p

/-- libgit2 status flag `WT_MODIFIED`: in both the index and the
working tree with different contents. -/
def wtMod (s : RepoState) (p : String) : Bool :=
  match s.indexT.lookup p, s.workdir.lookup p with
  | some i, some w => i != w
  | _, _ => false

/-- libgit2 status flag `WT_DELETED`: in the index, not in the working
tree. -/
def wtDel (s : RepoState) (p : String) : Bool :=
  hasPath s.indexT p && !hasPath s.workdir p

/-- Whether any status flag is set, i.e. whether `repo.statuses` (with
include_untracked, without include_unmodified) reports the path. -/
def hasFlag (s : RepoState) (p : String) : Bool :=
  idxNew s p || idxMod s p || idxDel s p || wtNew s p || wtMod s p || wtDel s p

/-- Every path known to any of the three stores (each once). -/
def allPaths (s : RepoState) : List String :=
  (s.headTree.map Prod.fst ++ s.indexT.map Prod.fst ++ s.workdir.map Prod.fst).dedup

/-- Paths reported by `repo.statuses`.  libgit2 reports them in path
order; the order is irrelevant to every claim, so the model keeps
first-occurrence order. -/
def statusPaths (s : RepoState) : List String :=
  (allPaths s).filter (hasFlag s)

/-- Result of Rust's `Path::strip_prefix("./")`: the path without a
leading "./", when it has one. -/
def stripDotSlash (p : String) : Option String :=
  match p.data with
  | '.' :: '/' :: rest => some (String.mk rest)
  | _ => none

/-- Whether libgit2's `tree.get_path` succeeds for `p`: the tree has
an entry at that path, either a blob (`p` itself is a stored file
path) or a subtree (`git_tree_entry_bypath` also resolves directory
entries, i.e. some stored file path lies strictly below `p`). -/
def treeHasEntry (t : PathMap) (p : String) : Bool :=
  hasPath t p || t.any fun e => (p ++ "/").data.isPrefixOf e.1.data

/-- Translation of `path_tracked_in_head` (main.rs lines 78-94): the
path, with a leading "./" stripped if present, or the path itself, is
found in the tree of the HEAD commit — as a file or as a directory. -/
def path_tracked_in_head (s : RepoState) (p : String) : Bool :=
  (match stripDotSlash p with
   | some q => treeHasEntry s.headTree q
   | none => false) || treeHasEntry s.headTree p

/-- The one aliased configuration in which `path_tracked_in_head`
succeeds on a path the HEAD tree stores no file at: the path shadows
a directory tracked in HEAD (some HEAD file lies strictly below it). -/
def shadowsHeadDir (s : RepoState) (p : String) : Bool :=
  !hasPath s.headTree p
    && s.headTree.any fun e => (p ++ "/").data.isPrefixOf e.1.data

/-- Aliased repository state: HEAD and the index track foo/bar.txt,
the working tree has the directory replaced by an untracked file foo.
`tree.get_path("foo")` succeeds on the subtree entry, so the first
pass classifies foo as tracked-in-HEAD. -/
def statusAliased : RepoState :=
  ⟨[("foo/bar.txt", "x")], [("foo/bar.txt", "x")], [("foo", "y")]⟩

/-- Accumulator for the two classification passes. -/
structure StatusAcc where
  staged : List FileChange
  unstaged : List FileChange
  untracked : List String
  deriving Repr, DecidableEq

/-- Staged entry contributed by the first pass for one path: the
else-if chain over the index flags (main.rs lines 622-651).  The
`INDEX_RENAMED` arm of the source is unreachable in the modeled states
(rename detection is never enabled) and has no counterpart here. -/
def stagedAdd (s : RepoState) (p : String) : List FileChange :=
  if idxNew s p then [⟨p, "added", 1, 0⟩]
  else if idxMod s p then [⟨p, "modified", 1, 0⟩]
  else if idxDel s p then [⟨p, "deleted", 0, 1⟩]
  else []

/-- Working-tree side of the first pass for one path (main.rs lines
653-701), run whether or not the path was staged.  The `WT_TYPECHANGE`
arm of the source is unreachable in the modeled states (no file modes)
and has no counterpart here. -/
def wtPart (s : RepoState) (acc : StatusAcc) (p : String) : StatusAcc :=
  if wtNew s p then
    if path_tracked_in_head s p && idxDel s p then
      if acc.untracked.contains p then acc
      else { acc with untracked := acc.untracked ++ [p] }
    else if path_tracked_in_head s p then
      if (acc.unstaged.any fun f => f.path == p) then acc
      else { acc with unstaged := acc.unstaged ++ [⟨p, "modified", 1, 0⟩] }
    else if acc.untracked.contains p then acc
    else { acc with untracked := acc.untracked ++ [p] }
  else if wtMod s p then
    if !idxMod s p then
      { acc with unstaged := acc.unstaged ++ [⟨p, "modified", 1, 0⟩] }
    else acc
  else if wtDel s p then
    if !idxDel s p then
      { acc with unstaged := acc.unstaged ++ [⟨p, "deleted", 0, 1⟩] }
    else acc
  else acc

/-- One iteration of the first pass of `get_workspace_status`
(main.rs lines 617-702): the per-path status-flag view. -/
def statusStep (s : RepoState) (acc : StatusAcc) (p : String) : StatusAcc :=
  wtPart s { acc with staged := acc.staged ++ stagedAdd s p } p

/-- Delta kinds produced by `diff_index_to_workdir` with
include_untracked and recurse_untracked_dirs (main.rs lines 705-709). -/
inductive WdDelta where
  | deleted
  | modified
  | untracked
  deriving Repr, DecidableEq

/-- Index-to-working-tree delta for a path, if any. -/
def wdDelta (s : RepoState) (p : String) : Option WdDelta :=
  match s.indexT.lookup p, s.workdir.lookup p with
  | some _, none => some .deleted
  | some i, some w => if i != w then some .modified else none
  | none, some _ => some .untracked
  | none, none => none

/-- Paths visited by the index-to-workdir diff walk. -/
def deltaPaths (s : RepoState) : List String :=
  (s.indexT.map Prod.fst ++ s.workdir.map Prod.fst).dedup

/-- One iteration of the second pass of `get_workspace_status`
(main.rs lines 713-749): the index-to-workdir diff walk.  Note the
source pushes every non-untracked delta with additions=1, deletions=0,
regardless of its kind (the deleted and modified arms below differ
only in the status string, as in the source where the status string is
computed first and one shared guarded push follows). -/
def diffStep (s : RepoState) (acc : StatusAcc) (p : String) : StatusAcc :=
  match wdDelta s p with
  | none => acc
  | some .untracked =>
    if acc.untracked.contains p then acc
    else { acc with untracked := acc.untracked ++ [p] }
  | some .deleted =>
    if (acc.unstaged.any fun f => f.path == p) then acc
    else { acc with unstaged := acc.unstaged ++ [⟨p, "deleted", 1, 0⟩] }
  | some .modified =>
    if (acc.unstaged.any fun f => f.path == p) then acc
    else { acc with unstaged := acc.unstaged ++ [⟨p, "modified", 1, 0⟩] }

/-- Translation of `get_workspace_status` (main.rs lines 596-756):
the status-flag pass followed by the index-to-workdir diff pass. -/
def get_workspace_status (s : RepoState) : WorkspaceStatus :=
  let acc := (statusPaths s).foldl (statusStep s) ⟨[], [], []⟩
  let acc := (deltaPaths s).foldl (diffStep s) acc
  ⟨acc.staged, acc.unstaged, acc.untracked⟩

/-- Normalized repository state: no stored path carries a literal
"./" prefix (libgit2 always reports normalized relative paths). -/
def NormPaths (s : RepoState) : Prop :=
  ∀ p ∈ allPaths s, stripDotSlash p = none

instance (s : RepoState) : Decidable (NormPaths s) := by
  unfold NormPaths; infer_instance

/-- Placeholder additions/deletions table used throughout the source:
deleted entries get (0, 1), every other kind gets (1, 0). -/
def placeholderCounts (st : String) : Int × Int :=
  if st = "deleted" then (0, 1) else (1, 0)

/-! ## Per-commit file listing (`get_commit_files`, main.rs lines 441-514) -/

/-- Delta kind between a parent tree and a commit tree, per path
(`diff_tree_to_tree` without rename/copy detection). -/
def commitDelta (oldT newT : PathMap) (p : String) : Option String :=
  match oldT.lookup p, newT.lookup p with
  | none, some _ => some "added"
  | some _, none => some "deleted"
  | some o, some n => if o != n then some "modified" else none
  | none, none => none

/-- Translation of the diff walk of `get_commit_files` (main.rs lines
469-511): one `FileChange` per delta, with the source's additions and
deletions match expressions (lines 487-497). -/
def get_commit_files (oldT newT : PathMap) : List FileChange :=
  ((oldT.map Prod.fst ++ newT.map Prod.fst).dedup).filterMap fun p =>
    (commitDelta oldT newT p).map fun st =>
      ⟨p, st,
        if st = "added" then 1 else if st = "deleted" then 0 else 1,
        if st = "deleted" then 1 else if st = "added" then 0 else 0⟩

/-! ## Synchronization engine: pull (`pull_changes`, main.rs lines 914-1090)

The model starts after a successful fetch: `remoteOid` is the commit
the remote-tracking ref `refs/remotes/origin/<branch>` resolves to,
`localOid` the commit HEAD resolves to.  `headSymbolic` records
whether the repository's HEAD reference is symbolic (the normal
on-a-branch state) or detached (a direct reference); the source's
fast-forward step calls `repo.find_reference("HEAD")` followed by
`set_target`, and libgit2's `git_reference_set_target` demands a
direct reference, failing with "cannot set OID on symbolic reference"
otherwise.  The source's `merge_base(local, remote) == local` test is
modeled as `reach commits remote local` (`local` is an ancestor-or-self
of `remote`), which is equivalent: `local` is a common ancestor
dominating every other one exactly when it is an ancestor of `remote`,
and when no common ancestor exists the source maps the error to
`false`, as does `reach`.  The conflict outcome of
`merge_commits`/`write_tree` is libgit2's file-level three-way merge,
outside this repository's code, and is carried as the oracle field
`mergeOk`; both a conflicted merge index and a failed write abort the
pull before any commit is created. -/

/-- Repository state consulted by `pull_changes` after its fetch
succeeded.  `headTree` is the tree of the HEAD commit; the pull code
never reads it, but it makes index-vs-HEAD (staged) change states
expressible. -/
structure PullRepo where
  branch : String
  headSymbolic : Bool
  localOid : Nat
  remoteOid : Nat
  commits : Graph
  msgs : List (Nat × String)
  headTree : PathMap
  indexT : PathMap
  workdir : PathMap
  mergeOk : Bool
  deriving Repr, DecidableEq

/-- Oid of a newly written commit object: fresh with respect to the
store (content addressing never reuses an oid). -/
def freshOid (g : Graph) : Nat := (goids g).foldr max 0 + 1

/-- Count of deltas of `repo.diff_index_to_workdir(Some(&index), None)`
(main.rs lines 1009-1013).  Default diff options: untracked files are
NOT included, so only index entries missing from or differing in the
working tree count. -/
def dirtyCount (r : PullRepo) : Nat :=
  r.indexT.countP fun e => !(r.workdir.lookup e.1 == some e.2)

/-- Whether the index differs anywhere from the HEAD tree (a staged
change exists).  `pull_changes` never computes this; it exists to
state the dirty-guard claim. -/
def stagedDirty (r : PullRepo) : Bool :=
  ((r.headTree.map Prod.fst ++ r.indexT.map Prod.fst).dedup).any fun p =>
    !(r.headTree.lookup p == r.indexT.lookup p)

/-- Translation of `pull_changes` (main.rs lines 914-1090) from the
point after the fetch succeeded (line 974).  Returns the caller-visible
result together with the post-state. -/
def pull_changes (r : PullRepo) : Except String String × PullRepo :=
  if r.remoteOid == r.localOid then
    (Except.ok "Already up to date", r)
  else if dirtyCount r > 0 then
    (Except.error "Cannot pull: You have uncommitted changes. Please commit or stash them first.", r)
  else
    match r.commits.lookup r.remoteOid with
    | none => (Except.error "Failed to find remote commit", r)
    | some _ =>
      match r.commits.lookup r.localOid with
      | none => (Except.error "Failed to find local commit", r)
      | some _ =>
        let is_ff := reach r.commits r.remoteOid r.localOid
        if is_ff then
          if r.headSymbolic then
            (Except.error "Failed to fast-forward: cannot set OID on symbolic reference", r)
          else
            (Except.ok "Successfully pulled (fast-forward)",
              { r with localOid := r.remoteOid })
        else if r.mergeOk then
          let newOid := freshOid r.commits
          (Except.ok ("Successfully pulled and merged (commit: "
              ++ toString newOid ++ ")"),
            { r with
              localOid := newOid,
              commits := r.commits ++ [(newOid, [r.localOid, r.remoteOid])],
              msgs := r.msgs
                ++ [(newOid, "Merge branch 'origin/" ++ r.branch ++ "'")] })
        else (Except.error "Failed to merge", r)

/-- Pull state with a staged-only change (index differs from HEAD's
tree, working tree matches the index) over diverged histories. -/
def pullStagedOnly : PullRepo :=
  ⟨"main", true, 1, 2, [(0, []), (1, [0]), (2, [0])], [],
    [], [("a.txt", "x")], [("a.txt", "x")], true⟩

/-- Pull state that is already up to date but has an unstaged change. -/
def pullUpToDateDirty : PullRepo :=
  ⟨"main", true, 1, 1, [(0, []), (1, [0])], [],
    [("a", "y")], [("a", "x")], [], true⟩

/-- Pull state with diverged histories, a conflict-free merge and an
unstaged change (index entry missing from the working tree). -/
def pullDivergedDirty : PullRepo :=
  ⟨"main", true, 1, 2, [(0, []), (1, [0]), (2, [0])], [],
    [("a", "x")], [("a", "x")], [], true⟩

/-- Clean pull state with diverged histories and a conflict-free merge. -/
def pullDivergedClean : PullRepo :=
  ⟨"main", true, 1, 2, [(0, []), (1, [0]), (2, [0])], [],
    [("a", "x")], [("a", "x")], [("a", "x")], true⟩

/-- Clean pull state whose local HEAD is a strict ancestor of the
fetched remote commit, on a branch (HEAD is a symbolic reference). -/
def pullFastForward : PullRepo :=
  ⟨"main", true, 0, 1, [(0, []), (1, [0])], [],
    [("a", "x")], [("a", "x")], [("a", "x")], true⟩

/-- The same state with a detached (direct) HEAD reference. -/
def pullFastForwardDetached : PullRepo :=
  ⟨"main", false, 0, 1, [(0, []), (1, [0])], [],
    [("a", "x")], [("a", "x")], [("a", "x")], true⟩

/-! ## Ahead/behind (`get_repository_info`, main.rs lines 315-330)

The source initializes both counters to zero and overwrites them only
when the current branch is found, both the branch and its upstream
have a target, and `graph_ahead_behind` succeeds; every failure along
the way (in particular `branch.upstream()` erring because no upstream
is configured) falls through an `if let` and leaves (0, 0) — it never
aborts the enclosing `get_repository_info`, which stays total here. -/

/-- State consulted by the ahead/behind block: the commit store, the
target of the current local branch, and the target of its upstream
(`none` when no upstream relationship exists). -/
structure InfoRepo where
  commits : Graph
  branchTarget : Option Nat
  upstreamTarget : Option Nat
  deriving Repr, DecidableEq

/-- libgit2's `graph_ahead_behind`: number of commits reachable from
the first tip and not the second, and conversely. -/
def graph_ahead_behind (g : Graph) (l u : Nat) : Nat × Nat :=
  ((goids g).countP fun c => reach g l c && !(reach g u c),
   (goids g).countP fun c => reach g u c && !(reach g l c))

/-- Translation of the ahead/behind computation of
`get_repository_info` (main.rs lines 315-330). -/
def ahead_behind (r : InfoRepo) : Nat × Nat :=
  match r.branchTarget, r.upstreamTarget with
  | some l, some u => graph_ahead_behind r.commits l u
  | _, _ => (0, 0)

/-- Branch 3 is one commit ahead of and one behind upstream 2. -/
def infoDiverged : InfoRepo :=
  ⟨[(0, []), (1, [0]), (2, [1]), (3, [1])], some 3, some 2⟩

/-- Same store, but the branch has no upstream. -/
def infoNoUpstream : InfoRepo :=
  ⟨[(0, []), (1, [0]), (2, [1]), (3, [1])], some 3, none⟩

/-! ## Push (`push_changes`, main.rs lines 832-911)

Modeled from the point where `remote.push` runs (line 893); opening
the repository, HEAD and the remote are preliminaries shared with
every command.  The network outcome of the push and the outcome of
`branch.set_upstream` are oracles; the source's error string carries
the transport error and a log path, abbreviated here. -/

/-- State consulted by `push_changes`: the current branch name, its
upstream relationship (if one exists), whether `find_branch` succeeds,
and the two external outcomes. -/
structure PushRepo where
  branch : String
  upstream : Option String
  branchFound : Bool
  pushOk : Bool
  setUpstreamOk : Bool
  deriving Repr, DecidableEq

/-- Translation of `push_changes` (main.rs lines 893-911): push first;
only after it succeeded, and only when `find_branch` succeeds and
`branch.upstream()` errs (no upstream yet), try to set the upstream to
origin/branch — a failure there is only logged. -/
def push_changes (r : PushRepo) : Except String String × PushRepo :=
  if !r.pushOk then
    (Except.error "Failed to push", r)
  else
    let r2 :=
      if r.branchFound then
        match r.upstream with
        | some _ => r
        | none =>
          if r.setUpstreamOk then
            { r with upstream := some ("origin/" ++ r.branch) }
          else r
      else r
    (Except.ok ("Successfully pushed to origin/" ++ r.branch), r2)

/-! ## Stash apply resolution (`apply_stash`, main.rs lines 2208-2291)

The ordered stash list is `(full oid string, message)` pairs,
most-recent-first, as enumerated by `stash_foreach`.  The source's
closure stops at the FIRST entry whose oid equals the query or starts
with it; only when no entry matches does it build the
stash-not-found error, listing every stash as "oid: message".  What
happens after a stash is selected (`repo.stash_apply` and its
fallback) is libgit2's working-tree surgery, outside this model; the
ok value is the index, oid and message handed to it. -/

/-- Match test of the `stash_foreach` closure (main.rs line 2219):
exact oid or oid starting with the query.  Rust's `starts_with` is
modeled on the character list. -/
def stashMatches (oid q : String) : Bool :=
  oid == q || q.data.isPrefixOf oid.data

/-- The `stash_foreach` scan with early stop (main.rs lines 2216-2226).
`i` is the running stash index. -/
def findStash (q : String) : List (String × String) → Nat → Option (Nat × String × String)
  | [], _ => none
  | (oid, msg) :: rest, i =>
    if stashMatches oid q then some (i, oid, msg)
    else findStash q rest (i + 1)

/-- The not-found error (main.rs lines 2230-2243), listing every
available stash as "oid: message". -/
def stashNotFoundMsg (stashes : List (String × String)) (q : String) : String :=
  "Stash not found: " ++ q ++ ". Available stashes: ["
    ++ String.intercalate ", " (stashes.map fun e => e.1 ++ ": " ++ e.2) ++ "]"

/-- Translation of the resolution part of `apply_stash` (main.rs lines
2208-2244). -/
def apply_stash (stashes : List (String × String)) (q : String) :
    Except String (Nat × String × String) :=
  match findStash q stashes 0 with
  | some res => Except.ok res
  | none => Except.error (stashNotFoundMsg stashes q)

/-! ## Theorems -/

theorem lookup_mem {α β : Type} [BEq α] [LawfulBEq α]
    {l : List (α × β)} {a : α} {b : β} (h : l.lookup a = some b) :
    (a, b) ∈ l := by
  induction l with
  | nil => simp [List.lookup] at h
  | cons e t ih =>
    rw [List.lookup] at h
    by_cases hk : a == e.1
    · rw [hk] at h
      simp only [Option.some.injEq] at h
      have hea : e = (a, b) := by
        cases e
        simp only [beq_iff_eq] at hk
        simp_all
      simp [hea]
    · rw [Bool.not_eq_true] at hk
      rw [hk] at h
      exact List.mem_cons_of_mem _ (ih h)

theorem reachesB_mono (g : Graph) :
    ∀ f f' a b, f ≤ f' → reachesB g f a b = true → reachesB g f' a b = true := by
  intro f
  induction f with
  | zero =>
    intro f' a b _ h
    simp [reachesB] at h
    cases f' <;> simp [reachesB, h]
  | succ f ih =>
    intro f' a b hle h
    cases f' with
    | zero => exact absurd hle (by omega)
    | succ f' =>
      simp [reachesB] at h ⊢
      rcases h with h | ⟨p, hp, hr⟩
      · exact Or.inl h
      · exact Or.inr ⟨p, hp, ih f' p b (by omega) hr⟩

theorem reachesB_sound (g : Graph) :
    ∀ f a b, reachesB g f a b = true → Reaches g a b := by
  intro f
  induction f with
  | zero =>
    intro a b h
    simp [reachesB] at h
    exact h ▸ Relation.ReflTransGen.refl
  | succ f ih =>
    intro a b h
    simp [reachesB] at h
    rcases h with h | ⟨p, hp, hr⟩
    · exact h ▸ Relation.ReflTransGen.refl
    · exact Relation.ReflTransGen.head hp (ih p b hr)

theorem grank_lt_of_parent {g : Graph} (hw : WfG g) {a p : Nat} {ps : List Nat}
    (hl : g.lookup a = some ps) (hp : p ∈ ps) : grank g p < grank g a :=
  hw (a, ps) (lookup_mem hl) p hp

theorem reachesB_complete_rank {g : Graph} (hw : WfG g) {a b : Nat}
    (h : Reaches g a b) : reachesB g (grank g a + 1) a b = true := by
  induction h using Relation.ReflTransGen.head_induction_on with
  | refl => simp [reachesB]
  | head hs _ ih =>
    rename_i x c _
    simp only [reachesB, Bool.or_eq_true]
    right
    rw [List.any_eq_true]
    refine ⟨c, hs, ?_⟩
    have hx : ∃ ps, g.lookup x = some ps ∧ c ∈ ps := by
      unfold Step parentsOf at hs
      cases hl : g.lookup x with
      | none => rw [hl] at hs; simp at hs
      | some ps => rw [hl] at hs; exact ⟨ps, rfl, hs⟩
    obtain ⟨ps, hl, hc⟩ := hx
    have hlt : grank g c < grank g x := grank_lt_of_parent hw hl hc
    exact reachesB_mono g _ _ _ _ (by omega) ih

theorem grank_le_length (g : Graph) (a : Nat) : grank g a ≤ g.length := by
  unfold grank
  exact List.findIdx_le_length _

theorem parentsOf_eq_nil_of_not_mem {g : Graph} {a : Nat}
    (h : a ∉ goids g) : parentsOf g a = [] := by
  unfold parentsOf
  cases hl : g.lookup a with
  | none => rfl
  | some ps =>
    exact absurd (List.mem_map_of_mem Prod.fst (lookup_mem hl)) h

theorem grank_lt_length_of_mem {g : Graph} {a : Nat} (h : a ∈ goids g) :
    grank g a < g.length := by
  unfold goids at h
  obtain ⟨e, he, hfst⟩ := List.mem_map.mp h
  have : (fun e : Nat × List Nat => e.1 == a) e = true := by simp [hfst]
  exact List.findIdx_lt_length_of_exists ⟨e, he, this⟩

theorem reachesB_complete {g : Graph} (hw : WfG g) {a b : Nat}
    (h : Reaches g a b) : reachesB g g.length a b = true := by
  by_cases hm : a ∈ goids g
  · exact reachesB_mono g _ _ _ _ (grank_lt_length_of_mem hm)
      (reachesB_complete_rank hw h)
  · have hnil : parentsOf g a = [] := parentsOf_eq_nil_of_not_mem hm
    have hab : a = b := by
      cases h.cases_head with
      | inl h => exact h
      | inr h =>
        obtain ⟨c, hs, _⟩ := h
        unfold Step at hs
        rw [hnil] at hs
        simp at hs
    cases g.length <;> simp [reachesB, hab]

theorem reach_iff {g : Graph} (hw : WfG g) (a b : Nat) :
    reach g a b = true ↔ Reaches g a b :=
  ⟨reachesB_sound g g.length a b, reachesB_complete hw⟩

/-! ### Step-level characterization of the two passes -/

theorem wtPart_staged (s : RepoState) (acc : StatusAcc) (p : String) :
    (wtPart s acc p).staged = acc.staged := by
  unfold wtPart
  repeat' split
  all_goals rfl

theorem statusStep_staged (s : RepoState) (acc : StatusAcc) (p : String) :
    (statusStep s acc p).staged = acc.staged ++ stagedAdd s p := by
  unfold statusStep
  rw [wtPart_staged]

theorem stagedAdd_mem {s : RepoState} {p : String} {e : FileChange}
    (h : e ∈ stagedAdd s p) :
    e.path = p ∧ (e.additions, e.deletions) = placeholderCounts e.status
      ∧ (hasPath s.headTree p || hasPath s.indexT p) = true := by
  unfold stagedAdd at h
  split at h
  · rename_i hn
    simp at h
    subst h
    unfold idxNew at hn
    simp_all [placeholderCounts]
  · split at h
    · rename_i hm
      simp at h
      subst h
      unfold idxMod at hm
      refine ⟨rfl, by simp [placeholderCounts], ?_⟩
      cases hh : s.headTree.lookup p with
      | none => rw [hh] at hm; simp at hm
      | some v => simp [hasPath, hh]
    · split at h
      · rename_i hd
        simp at h
        subst h
        unfold idxDel at hd
        simp_all [placeholderCounts]
      · simp at h

theorem statusStep_unstaged (s : RepoState) (acc : StatusAcc) (p : String) :
    (statusStep s acc p).unstaged = acc.unstaged
    ∨ ∃ e, (statusStep s acc p).unstaged = acc.unstaged ++ [e]
        ∧ e.path = p
        ∧ (e = ⟨p, "modified", 1, 0⟩ ∨ e = ⟨p, "deleted", 0, 1⟩)
        ∧ (stripDotSlash p = none →
            hasPath s.indexT p = true ∨ shadowsHeadDir s p = true) := by
  unfold statusStep wtPart
  by_cases h1 : wtNew s p
  · simp only [h1, if_true]
    by_cases h2 : path_tracked_in_head s p && idxDel s p
    · simp only [h2, if_true]
      split <;> left <;> rfl
    · simp only [h2, if_false, Bool.false_eq_true]
      by_cases h3 : path_tracked_in_head s p
      · simp only [h3, if_true]
        split
        · left; rfl
        · right
          refine ⟨⟨p, "modified", 1, 0⟩, rfl, rfl, Or.inl rfl, ?_⟩
          intro hp
          right
          unfold wtNew at h1
          simp at h1
          unfold path_tracked_in_head at h2 h3
          rw [hp] at h2 h3
          simp only [Bool.false_or] at h2 h3
          unfold idxDel at h2
          have hhb : hasPath s.headTree p = false := by
            cases hc : hasPath s.headTree p with
            | false => rfl
            | true => simp [h3, hc, h1.2] at h2
          unfold treeHasEntry at h3
          rw [hhb] at h3
          simp only [Bool.false_or] at h3
          unfold shadowsHeadDir
          rw [hhb, h3]
          rfl
      · simp only [h3, if_false, Bool.false_eq_true]
        split <;> left <;> rfl
  · simp only [h1, if_false, Bool.false_eq_true]
    by_cases h2 : wtMod s p
    · simp only [h2, if_true]
      split
      · right
        refine ⟨⟨p, "modified", 1, 0⟩, rfl, rfl, Or.inl rfl, ?_⟩
        intro _
        unfold wtMod at h2
        cases hi : s.indexT.lookup p with
        | none => rw [hi] at h2; simp at h2
        | some v => simp [hasPath, hi]
      · left; rfl
    · simp only [h2, if_false, Bool.false_eq_true]
      by_cases h3 : wtDel s p
      · simp only [h3, if_true]
        split
        · right
          refine ⟨⟨p, "deleted", 0, 1⟩, rfl, rfl, Or.inr rfl, ?_⟩
          intro _
          unfold wtDel at h3
          simp at h3
          exact Or.inl h3.1
        · left; rfl
      · simp only [h3, if_false, Bool.false_eq_true]
        exact Or.inl trivial

theorem statusStep_untracked (s : RepoState) (acc : StatusAcc) (p : String) :
    (statusStep s acc p).untracked = acc.untracked
    ∨ ((statusStep s acc p).untracked = acc.untracked ++ [p]
        ∧ p ∉ acc.untracked ∧ hasPath s.indexT p = false) := by
  have hidx : wtNew s p = true → hasPath s.indexT p = false := by
    intro h
    unfold wtNew at h
    simp at h
    exact h.2
  unfold statusStep wtPart
  by_cases h1 : wtNew s p
  · simp only [h1, if_true]
    by_cases h2 : path_tracked_in_head s p && idxDel s p
    · simp only [h2, if_true]
      split
      · left; rfl
      · rename_i hc
        right
        exact ⟨rfl, by simpa [List.elem_iff] using hc, hidx h1⟩
    · simp only [h2, if_false, Bool.false_eq_true]
      by_cases h3 : path_tracked_in_head s p
      · simp only [h3, if_true]
        split <;> left <;> rfl
      · simp only [h3, if_false, Bool.false_eq_true]
        split
        · left; rfl
        · rename_i hc
          right
          exact ⟨rfl, by simpa [List.elem_iff] using hc, hidx h1⟩
  · simp only [h1, if_false, Bool.false_eq_true]
    repeat' split
    all_goals (left; rfl)

theorem diffStep_staged (s : RepoState) (acc : StatusAcc) (p : String) :
    (diffStep s acc p).staged = acc.staged := by
  unfold diffStep
  repeat' split
  all_goals rfl

theorem diffStep_unstaged (s : RepoState) (acc : StatusAcc) (p : String) :
    (diffStep s acc p).unstaged = acc.unstaged
    ∨ ∃ st, (diffStep s acc p).unstaged = acc.unstaged ++ [⟨p, st, 1, 0⟩]
        ∧ (st = "deleted" ∨ st = "modified")
        ∧ (∀ e ∈ acc.unstaged, e.path ≠ p)
        ∧ hasPath s.indexT p = true
        ∧ (st = "deleted" → wdDelta s p = some .deleted) := by
  have hguard : ∀ (h : acc.unstaged.any (fun f => f.path == p) = false),
      ∀ e ∈ acc.unstaged, e.path ≠ p := by
    intro h e he
    rw [List.any_eq_false] at h
    have := h e he
    simpa using this
  cases hd : wdDelta s p with
  | none => left; simp [diffStep, hd]
  | some d =>
    have hidx : d ≠ .untracked → hasPath s.indexT p = true := by
      intro _
      unfold wdDelta at hd
      cases hi : s.indexT.lookup p with
      | none =>
        rw [hi] at hd
        cases hw : s.workdir.lookup p with
        | none => rw [hw] at hd; simp at hd
        | some w => rw [hw] at hd; simp at hd; simp_all
      | some v => simp [hasPath, hi]
    cases d with
    | untracked =>
      left
      simp only [diffStep, hd]
      split <;> rfl
    | deleted =>
      simp only [diffStep, hd]
      split
      · left; rfl
      · rename_i hc
        right
        exact ⟨"deleted", rfl, Or.inl rfl, hguard (by simpa using hc),
          hidx (by simp), by simp [hd]⟩
    | modified =>
      simp only [diffStep, hd]
      split
      · left; rfl
      · rename_i hc
        right
        exact ⟨"modified", rfl, Or.inr rfl, hguard (by simpa using hc),
          hidx (by simp), by simp⟩

theorem diffStep_untracked (s : RepoState) (acc : StatusAcc) (p : String) :
    (diffStep s acc p).untracked = acc.untracked
    ∨ ((diffStep s acc p).untracked = acc.untracked ++ [p]
        ∧ p ∉ acc.untracked ∧ hasPath s.indexT p = false) := by
  cases hd : wdDelta s p with
  | none => left; simp [diffStep, hd]
  | some d =>
    cases d with
    | untracked =>
      simp only [diffStep, hd]
      split
      · left; rfl
      · rename_i hc
        right
        refine ⟨rfl, by simpa [List.elem_iff] using hc, ?_⟩
        unfold wdDelta at hd
        cases hi : s.indexT.lookup p with
        | none => simp [hasPath, hi]
        | some v =>
          rw [hi] at hd
          cases hw : s.workdir.lookup p with
          | none => rw [hw] at hd; simp at hd
          | some w => rw [hw] at hd; split at hd <;> simp_all
    | deleted =>
      left
      simp only [diffStep, hd]
      split <;> rfl
    | modified =>
      left
      simp only [diffStep, hd]
      split <;> rfl

/-! ### Fold-level lemmas -/

theorem foldl_mem_mono {α β γ : Type} (f : β → α → β) (proj : β → List γ)
    (hstep : ∀ acc a, ∃ t, proj (f acc a) = proj acc ++ t) :
    ∀ (l : List α) (acc : β), ∀ x ∈ proj acc, x ∈ proj (l.foldl f acc) := by
  intro l
  induction l with
  | nil => intro acc x hx; exact hx
  | cons a t ih =>
    intro acc x hx
    obtain ⟨u, hu⟩ := hstep acc a
    exact ih (f acc a) x (by rw [hu]; exact List.mem_append_left _ hx)

theorem foldl_mem_of_processed {α β γ : Type} [DecidableEq α]
    (f : β → α → β) (proj : β → List γ)
    (hstep : ∀ acc a, ∃ t, proj (f acc a) = proj acc ++ t)
    {p : α} {x : γ} (hadds : ∀ acc, x ∈ proj (f acc p)) :
    ∀ (l : List α) (acc : β), p ∈ l → x ∈ proj (l.foldl f acc) := by
  intro l
  induction l with
  | nil => intro acc h; simp at h
  | cons a t ih =>
    intro acc h
    by_cases hp : a = p
    · subst hp
      exact foldl_mem_mono f proj hstep t (f acc a) x (hadds acc)
    · have : p ∈ t := by
        rcases List.mem_cons.mp h with h | h
        · exact absurd h.symm hp
        · exact h
      exact ih (f acc a) this

theorem foldl_inv {α β : Type} (f : β → α → β) (P : β → Prop) :
    ∀ (l : List α), (∀ acc a, a ∈ l → P acc → P (f acc a)) →
      ∀ acc, P acc → P (l.foldl f acc) := by
  intro l
  induction l with
  | nil => intro _ acc h; exact h
  | cons a t ih =>
    intro hstep acc h
    exact ih (fun acc b hb => hstep acc b (List.mem_cons_of_mem _ hb))
      (f acc a) (hstep acc a (List.mem_cons_self a t) h)

theorem statusStep_unstaged_grows (s : RepoState) (acc : StatusAcc) (p : String) :
    ∃ t, (statusStep s acc p).unstaged = acc.unstaged ++ t := by
  rcases statusStep_unstaged s acc p with h | ⟨e, h, _⟩
  · exact ⟨[], by simp [h]⟩
  · exact ⟨[e], h⟩

theorem statusStep_untracked_grows (s : RepoState) (acc : StatusAcc) (p : String) :
    ∃ t, (statusStep s acc p).untracked = acc.untracked ++ t := by
  rcases statusStep_untracked s acc p with h | ⟨h, _⟩
  · exact ⟨[], by simp [h]⟩
  · exact ⟨[p], h⟩

theorem diffStep_unstaged_grows (s : RepoState) (acc : StatusAcc) (p : String) :
    ∃ t, (diffStep s acc p).unstaged = acc.unstaged ++ t := by
  rcases diffStep_unstaged s acc p with h | ⟨st, h, _⟩
  · exact ⟨[], by simp [h]⟩
  · exact ⟨[⟨p, st, 1, 0⟩], h⟩

theorem diffStep_untracked_grows (s : RepoState) (acc : StatusAcc) (p : String) :
    ∃ t, (diffStep s acc p).untracked = acc.untracked ++ t := by
  rcases diffStep_untracked s acc p with h | ⟨h, _⟩
  · exact ⟨[], by simp [h]⟩
  · exact ⟨[p], h⟩

theorem foldl_statusStep_staged (s : RepoState) :
    ∀ (l : List String) (acc : StatusAcc),
      (l.foldl (statusStep s) acc).staged = acc.staged ++ l.flatMap (stagedAdd s) := by
  intro l
  induction l with
  | nil => intro acc; simp
  | cons p t ih =>
    intro acc
    rw [List.foldl_cons, ih, statusStep_staged]
    simp

theorem foldl_diffStep_staged (s : RepoState) :
    ∀ (l : List String) (acc : StatusAcc),
      (l.foldl (diffStep s) acc).staged = acc.staged := by
  intro l
  induction l with
  | nil => intro acc; rfl
  | cons p t ih =>
    intro acc
    rw [List.foldl_cons, ih, diffStep_staged]

theorem mem_keys_of_lookup_isSome {t : PathMap} {p : String}
    (h : (t.lookup p).isSome = true) : p ∈ t.map Prod.fst := by
  cases hl : t.lookup p with
  | none => rw [hl] at h; simp at h
  | some v => exact List.mem_map_of_mem Prod.fst (lookup_mem hl)

theorem staged_eq (s : RepoState) :
    (get_workspace_status s).staged_files
      = (statusPaths s).flatMap (stagedAdd s) := by
  have h : (get_workspace_status s).staged_files
      = ((deltaPaths s).foldl (diffStep s)
          ((statusPaths s).foldl (statusStep s) ⟨[], [], []⟩)).staged := rfl
  rw [h, foldl_diffStep_staged, foldl_statusStep_staged]
  rfl

/-- Shared invariant: every unstaged entry is an index path or an
untracked file shadowing a directory tracked in HEAD, and every
untracked path is a non-index path. -/
theorem workspace_index_inv (s : RepoState) (hn : NormPaths s) :
    (∀ e ∈ (get_workspace_status s).unstaged_files,
      hasPath s.indexT e.path = true ∨ shadowsHeadDir s e.path = true)
    ∧ (∀ q ∈ (get_workspace_status s).untracked_files, hasPath s.indexT q = false) := by
  have hinv : ∀ (acc : StatusAcc),
      ((∀ e ∈ acc.unstaged,
          hasPath s.indexT e.path = true ∨ shadowsHeadDir s e.path = true)
        ∧ (∀ q ∈ acc.untracked, hasPath s.indexT q = false)) →
      ((∀ e ∈ ((deltaPaths s).foldl (diffStep s) acc).unstaged,
          hasPath s.indexT e.path = true ∨ shadowsHeadDir s e.path = true)
        ∧ (∀ q ∈ ((deltaPaths s).foldl (diffStep s) acc).untracked,
          hasPath s.indexT q = false)) := by
    intro acc h
    refine foldl_inv (diffStep s)
      (fun acc => (∀ e ∈ acc.unstaged,
          hasPath s.indexT e.path = true ∨ shadowsHeadDir s e.path = true)
        ∧ (∀ q ∈ acc.untracked, hasPath s.indexT q = false))
      (deltaPaths s) ?_ acc h
    intro acc p _ ⟨h1, h2⟩
    constructor
    · intro e he
      rcases diffStep_unstaged s acc p with hu | ⟨st, hu, _, _, hidx, _⟩
      · rw [hu] at he; exact h1 e he
      · rw [hu] at he
        rcases List.mem_append.mp he with he | he
        · exact h1 e he
        · simp at he; subst he; exact Or.inl hidx
    · intro q hq
      rcases diffStep_untracked s acc p with hu | ⟨hu, _, hidx⟩
      · rw [hu] at hq; exact h2 q hq
      · rw [hu] at hq
        rcases List.mem_append.mp hq with hq | hq
        · exact h2 q hq
        · simp at hq; subst hq; exact hidx
  have hpass1 : ∀ (acc : StatusAcc),
      ((∀ e ∈ acc.unstaged,
          hasPath s.indexT e.path = true ∨ shadowsHeadDir s e.path = true)
        ∧ (∀ q ∈ acc.untracked, hasPath s.indexT q = false)) →
      ((∀ e ∈ ((statusPaths s).foldl (statusStep s) acc).unstaged,
          hasPath s.indexT e.path = true ∨ shadowsHeadDir s e.path = true)
        ∧ (∀ q ∈ ((statusPaths s).foldl (statusStep s) acc).untracked,
          hasPath s.indexT q = false)) := by
    intro acc h
    refine foldl_inv (statusStep s)
      (fun acc => (∀ e ∈ acc.unstaged,
          hasPath s.indexT e.path = true ∨ shadowsHeadDir s e.path = true)
        ∧ (∀ q ∈ acc.untracked, hasPath s.indexT q = false))
      (statusPaths s) ?_ acc h
    intro acc p hp ⟨h1, h2⟩
    have hps : stripDotSlash p = none :=
      hn p (List.mem_filter.mp hp).1
    constructor
    · intro e he
      rcases statusStep_unstaged s acc p with hu | ⟨e', hu, hpath, _, hidx⟩
      · rw [hu] at he; exact h1 e he
      · rw [hu] at he
        rcases List.mem_append.mp he with he | he
        · exact h1 e he
        · simp at he; subst he; rw [hpath]; exact hidx hps
    · intro q hq
      rcases statusStep_untracked s acc p with hu | ⟨hu, _, hidx⟩
      · rw [hu] at hq; exact h2 q hq
      · rw [hu] at hq
        rcases List.mem_append.mp hq with hq | hq
        · exact h2 q hq
        · simp at hq; subst hq; exact hidx
  have h0 := hpass1 ⟨[], [], []⟩ (by constructor <;> intro x hx <;> simp at hx)
  exact hinv _ h0

theorem mem_of_mem_flatMap_stagedAdd {s : RepoState} {l : List String}
    {e : FileChange} (h : e ∈ l.flatMap (stagedAdd s)) :
    ∃ p ∈ l, e ∈ stagedAdd s p := by
  rcases List.mem_flatMap.mp h with ⟨p, hp, he⟩
  exact ⟨p, hp, he⟩

theorem stagedAdd_paths_sub (s : RepoState) (p : String) :
    ∀ e ∈ stagedAdd s p, e.path = p := fun _ he => (stagedAdd_mem he).1

theorem stagedAdd_len (s : RepoState) (p : String) :
    stagedAdd s p = [] ∨ ∃ e, stagedAdd s p = [e] := by
  unfold stagedAdd
  repeat' split
  all_goals first
  | exact Or.inl rfl
  | exact Or.inr ⟨_, rfl⟩

theorem flatMap_stagedAdd_nodup (s : RepoState) :
    ∀ (l : List String), l.Nodup → ((l.flatMap (stagedAdd s)).map (·.path)).Nodup := by
  intro l
  induction l with
  | nil => intro _; simp
  | cons p t ih =>
    intro hn
    rw [List.flatMap_cons, List.map_append]
    apply List.Nodup.append
    · rcases stagedAdd_len s p with h | ⟨e, h⟩ <;> simp [h]
    · exact ih (List.Nodup.of_cons hn)
    · intro x hx hx'
      have hxp : x = p := by
        rcases List.mem_map.mp hx with ⟨e, he, hex⟩
        rw [← hex]
        exact stagedAdd_paths_sub s p e he
      rcases List.mem_map.mp hx' with ⟨e, he, hex⟩
      rcases mem_of_mem_flatMap_stagedAdd he with ⟨q, hq, heq⟩
      have : x = q := by rw [← hex]; exact stagedAdd_paths_sub s q e heq
      subst hxp
      rw [List.nodup_cons] at hn
      exact hn.1 (this ▸ hq)

theorem pass1_unstaged_nodup (s : RepoState) :
    ∀ (l : List String) (acc : StatusAcc), l.Nodup →
      ((acc.unstaged.map (·.path)).Nodup) →
      (∀ e ∈ acc.unstaged, e.path ∉ l) →
      (((l.foldl (statusStep s) acc).unstaged.map (·.path)).Nodup) := by
  intro l
  induction l with
  | nil => intro acc _ h _; exact h
  | cons p t ih =>
    intro acc hl hacc hdisj
    rw [List.foldl_cons]
    rcases statusStep_unstaged s acc p with hu | ⟨e, hu, hpath, _, _⟩
    · refine ih _ (List.Nodup.of_cons hl) (by rw [hu]; exact hacc) ?_
      rw [hu]
      intro e he
      exact fun hmem => hdisj e he (List.mem_cons_of_mem _ hmem)
    · refine ih _ (List.Nodup.of_cons hl) ?_ ?_
      · rw [hu, List.map_append]
        simp only [List.map_cons, List.map_nil]
        rw [List.nodup_append]
        refine ⟨hacc, by simp, ?_⟩
        intro x hx hx'
        simp [hpath] at hx'
        rcases List.mem_map.mp hx with ⟨e', he', hex⟩
        exact hdisj e' he' (by rw [hex, hx']; exact List.mem_cons_self p t)
      · rw [hu]
        intro e' he'
        rcases List.mem_append.mp he' with he' | he'
        · exact fun hmem => hdisj e' he' (List.mem_cons_of_mem _ hmem)
        · simp at he'
          subst he'
          rw [hpath]
          rw [List.nodup_cons] at hl
          exact hl.1

theorem pass2_unstaged_nodup (s : RepoState) (l : List String) (acc : StatusAcc)
    (h : (acc.unstaged.map (·.path)).Nodup) :
    ((l.foldl (diffStep s) acc).unstaged.map (·.path)).Nodup := by
  refine foldl_inv (diffStep s) (fun acc => (acc.unstaged.map (·.path)).Nodup)
    l ?_ acc h
  intro acc p _ hacc
  rcases diffStep_unstaged s acc p with hu | ⟨st, hu, _, hguard, _, _⟩
  · rw [hu]; exact hacc
  · rw [hu, List.map_append]
    simp only [List.map_cons, List.map_nil]
    rw [List.nodup_append]
    refine ⟨hacc, by simp, ?_⟩
    intro x hx hx'
    simp at hx'
    rcases List.mem_map.mp hx with ⟨e', he', hex⟩
    subst hx'
    exact hguard e' he' hex

theorem untracked_nodup_inv (s : RepoState) :
    ((get_workspace_status s).untracked_files).Nodup := by
  have hstep1 : ∀ (acc : StatusAcc) (p : String), acc.untracked.Nodup →
      (statusStep s acc p).untracked.Nodup := by
    intro acc p h
    rcases statusStep_untracked s acc p with hu | ⟨hu, hnm, _⟩
    · rw [hu]; exact h
    · rw [hu]
      simp [List.nodup_append, h, hnm]
  have hstep2 : ∀ (acc : StatusAcc) (p : String), acc.untracked.Nodup →
      (diffStep s acc p).untracked.Nodup := by
    intro acc p h
    rcases diffStep_untracked s acc p with hu | ⟨hu, hnm, _⟩
    · rw [hu]; exact h
    · rw [hu]
      simp [List.nodup_append, h, hnm]
  have h1 := foldl_inv (statusStep s) (fun acc => acc.untracked.Nodup)
    (statusPaths s) (fun acc p _ => hstep1 acc p) ⟨[], [], []⟩ (by simp)
  exact foldl_inv (diffStep s) (fun acc => acc.untracked.Nodup)
    (deltaPaths s) (fun acc p _ => hstep2 acc p) _ h1

/-! ### Placeholder-count invariant (second pass must never reach its
deleted arm with a fresh path) -/

theorem statusStep_adds_wt_deleted {s : RepoState} {p : String}
    (hwn : wtNew s p = false) (hwm : wtMod s p = false)
    (hwd : wtDel s p = true) (hid : idxDel s p = false) :
    ∀ acc : StatusAcc, (⟨p, "deleted", 0, 1⟩ : FileChange) ∈ (statusStep s acc p).unstaged := by
  intro acc
  unfold statusStep wtPart
  simp only [hwn, hwm, hwd, hid, Bool.false_eq_true, if_false, if_true,
    Bool.not_false, Bool.true_eq_false]
  simp

theorem wdDelta_deleted_flags {s : RepoState} {p : String}
    (hd : wdDelta s p = some .deleted) :
    wtNew s p = false ∧ wtMod s p = false ∧ wtDel s p = true
      ∧ idxDel s p = false ∧ hasFlag s p = true
      ∧ (s.indexT.lookup p).isSome = true := by
  unfold wdDelta at hd
  cases hi : s.indexT.lookup p with
  | none =>
    rw [hi] at hd
    cases hw : s.workdir.lookup p with
    | none => rw [hw] at hd; simp at hd
    | some w => rw [hw] at hd; simp at hd
  | some v =>
    rw [hi] at hd
    cases hw : s.workdir.lookup p with
    | none =>
      have h1 : wtNew s p = false := by
        unfold wtNew hasPath
        rw [hw]
        simp
      have h2 : wtMod s p = false := by
        unfold wtMod
        rw [hi, hw]
      have h3 : wtDel s p = true := by
        unfold wtDel hasPath
        rw [hi, hw]
        simp
      have h4 : idxDel s p = false := by
        unfold idxDel hasPath
        rw [hi]
        simp
      refine ⟨h1, h2, h3, h4, ?_, by simp [hi]⟩
      unfold hasFlag
      rw [h3]
      simp
    | some w => rw [hw] at hd; split at hd <;> simp_all

theorem pass1_wt_deleted_mem {s : RepoState} {p : String}
    (hd : wdDelta s p = some .deleted) :
    (⟨p, "deleted", 0, 1⟩ : FileChange)
      ∈ ((statusPaths s).foldl (statusStep s) ⟨[], [], []⟩).unstaged := by
  obtain ⟨h1, h2, h3, h4, h5, h6⟩ := wdDelta_deleted_flags hd
  refine foldl_mem_of_processed (statusStep s) (fun acc => acc.unstaged)
    (statusStep_unstaged_grows s) (statusStep_adds_wt_deleted h1 h2 h3 h4)
    (statusPaths s) ⟨[], [], []⟩ ?_
  unfold statusPaths
  rw [List.mem_filter]
  refine ⟨?_, h5⟩
  unfold allPaths
  rw [List.mem_dedup]
  exact List.mem_append_left _ (List.mem_append_right _ (mem_keys_of_lookup_isSome h6))

/-- Shared invariant: every change entry reported by the status
classifier carries the placeholder additions/deletions pair of its
change kind. -/
theorem workspace_placeholder_inv (s : RepoState) :
    ∀ e : FileChange,
      e ∈ (get_workspace_status s).staged_files
        ∨ e ∈ (get_workspace_status s).unstaged_files →
      (e.additions, e.deletions) = placeholderCounts e.status := by
  have hstaged : ∀ e ∈ (get_workspace_status s).staged_files,
      (e.additions, e.deletions) = placeholderCounts e.status := by
    intro e he
    rw [staged_eq] at he
    rcases mem_of_mem_flatMap_stagedAdd he with ⟨q, _, heq⟩
    exact (stagedAdd_mem heq).2.1
  have hpass1 : ∀ e ∈ ((statusPaths s).foldl (statusStep s)
      (⟨[], [], []⟩ : StatusAcc)).unstaged,
      (e.additions, e.deletions) = placeholderCounts e.status := by
    refine foldl_inv (statusStep s)
      (fun acc => ∀ e ∈ acc.unstaged,
        (e.additions, e.deletions) = placeholderCounts e.status)
      (statusPaths s) ?_ ⟨[], [], []⟩ (by intro e he; simp at he)
    intro acc p _ h e he
    rcases statusStep_unstaged s acc p with hu | ⟨e', hu, _, hkind, _⟩
    · rw [hu] at he; exact h e he
    · rw [hu] at he
      rcases List.mem_append.mp he with he | he
      · exact h e he
      · simp at he
        subst he
        rcases hkind with hk | hk <;> subst hk <;> simp [placeholderCounts]
  have hpass2 : ∀ (l : List String) (acc : StatusAcc),
      (∀ e ∈ acc.unstaged,
        (e.additions, e.deletions) = placeholderCounts e.status) →
      (∀ p ∈ l, wdDelta s p = some .deleted → ∃ e ∈ acc.unstaged, e.path = p) →
      ∀ e ∈ (l.foldl (diffStep s) acc).unstaged,
        (e.additions, e.deletions) = placeholderCounts e.status := by
    intro l
    induction l with
    | nil => intro acc h _ e he; exact h e he
    | cons p t ih =>
      intro acc h hdel
      rw [List.foldl_cons]
      rcases diffStep_unstaged s acc p with hu | ⟨st, hu, hkind, hguard, _, hdl⟩
      · refine ih _ (by rw [hu]; exact h) ?_
        intro q hq hdq
        obtain ⟨e, he, hep⟩ := hdel q (List.mem_cons_of_mem _ hq) hdq
        exact ⟨e, by rw [hu]; exact he, hep⟩
      · have hst : st = "modified" := by
          rcases hkind with hk | hk
          · exfalso
            obtain ⟨e, he, hep⟩ := hdel p (List.mem_cons_self p t) (hdl hk)
            exact hguard e he hep
          · exact hk
        subst hst
        refine ih _ ?_ ?_
        · rw [hu]
          intro e he
          rcases List.mem_append.mp he with he | he
          · exact h e he
          · simp at he
            subst he
            simp [placeholderCounts]
        · intro q hq hdq
          obtain ⟨e, he, hep⟩ := hdel q (List.mem_cons_of_mem _ hq) hdq
          exact ⟨e, by rw [hu]; exact List.mem_append_left _ he, hep⟩
  intro e he
  rcases he with he | he
  · exact hstaged e he
  · have hfin : (get_workspace_status s).unstaged_files
        = ((deltaPaths s).foldl (diffStep s)
            ((statusPaths s).foldl (statusStep s) ⟨[], [], []⟩)).unstaged := rfl
    rw [hfin] at he
    refine hpass2 (deltaPaths s) _ hpass1 ?_ e he
    intro p _ hdp
    exact ⟨⟨p, "deleted", 0, 1⟩, pass1_wt_deleted_mem hdp, rfl⟩

theorem get_commit_files_placeholder (oldT newT : PathMap) :
    ∀ e ∈ get_commit_files oldT newT,
      (e.additions, e.deletions) = placeholderCounts e.status := by
  intro e he
  unfold get_commit_files at he
  rcases List.mem_filterMap.mp he with ⟨p, _, hp⟩
  cases hd : commitDelta oldT newT p with
  | none => rw [hd] at hp; simp at hp
  | some st =>
    rw [hd] at hp
    simp at hp
    subst hp
    by_cases h1 : st = "added"
    · simp [h1, placeholderCounts]
    · by_cases h2 : st = "deleted" <;> simp [h1, h2, placeholderCounts]

/-! ### Further membership helpers for the tie-break claim -/

theorem diffStep_adds_untracked {s : RepoState} {p : String}
    (hd : wdDelta s p = some .untracked) :
    ∀ acc : StatusAcc, p ∈ (diffStep s acc p).untracked := by
  intro acc
  simp only [diffStep, hd]
  split
  · rename_i hc
    simpa using hc
  · simp

theorem untracked_mem_of_delta {s : RepoState} {p : String}
    (hd : wdDelta s p = some .untracked)
    (hp : p ∈ deltaPaths s) :
    p ∈ (get_workspace_status s).untracked_files := by
  have hfin : (get_workspace_status s).untracked_files
      = ((deltaPaths s).foldl (diffStep s)
          ((statusPaths s).foldl (statusStep s) ⟨[], [], []⟩)).untracked := rfl
  rw [hfin]
  exact foldl_mem_of_processed (diffStep s) (fun acc => acc.untracked)
    (diffStep_untracked_grows s) (diffStep_adds_untracked hd)
    (deltaPaths s) _ hp

theorem stagedAdd_recreated {s : RepoState} {p : String} {v : String}
    (hh : s.headTree.lookup p = some v) (hi : s.indexT.lookup p = none) :
    stagedAdd s p = [⟨p, "deleted", 0, 1⟩] := by
  have h1 : idxNew s p = false := by
    unfold idxNew hasPath
    rw [hi]
    simp
  have h2 : idxMod s p = false := by
    unfold idxMod
    rw [hh, hi]
  have h3 : idxDel s p = true := by
    unfold idxDel hasPath
    rw [hh, hi]
    simp
  unfold stagedAdd
  rw [h1, h2, h3]
  simp

/-! ## Claim theorems on the status classifier -/

/-- C4 as frozen is false on the code: in `statusAliased` the HEAD
tree tracks foo/bar.txt and the working tree holds an untracked file
foo in its place; `tree.get_path("foo")` succeeds on the subtree
entry, so the first pass pushes foo into the unstaged list as
modified (main.rs 660-669) while the diff pass pushes it into the
untracked list (main.rs 728-733) — one path in both lists. -/
theorem claim_C4_counterexample :
    "foo" ∈ (get_workspace_status statusAliased).untracked_files
    ∧ (⟨"foo", "modified", 1, 0⟩ : FileChange)
        ∈ (get_workspace_status statusAliased).unstaged_files :=
  ⟨by decide, by decide⟩

/-- C4 (amended): for every path-normalized repository state and every
path that does not shadow a directory tracked in HEAD (no HEAD file
lies strictly below it), the status classification never places that
path simultaneously in the untracked list and in the unstaged list. -/
theorem claim_C4_amended (s : RepoState) (hn : NormPaths s) (p : String)
    (hsh : shadowsHeadDir s p = false)
    (hu : p ∈ (get_workspace_status s).untracked_files) :
    ∀ e ∈ (get_workspace_status s).unstaged_files, e.path ≠ p := by
  obtain ⟨h1, h2⟩ := workspace_index_inv s hn
  intro e he hep
  rcases h1 e he with ht | ht
  · rw [hep, h2 p hu] at ht
    exact Bool.false_ne_true ht
  · rw [hep, hsh] at ht
    exact Bool.false_ne_true ht

theorem claim_C4_amended_witness :
    (NormPaths ⟨[("b", "1")], [("b", "1")], [("a", "1"), ("b", "2")]⟩
      ∧ shadowsHeadDir ⟨[("b", "1")], [("b", "1")], [("a", "1"), ("b", "2")]⟩ "a"
          = false)
    ∧ "a" ∈ (get_workspace_status
        ⟨[("b", "1")], [("b", "1")], [("a", "1"), ("b", "2")]⟩).untracked_files
    ∧ (⟨"b", "modified", 1, 0⟩ : FileChange) ∈ (get_workspace_status
        ⟨[("b", "1")], [("b", "1")], [("a", "1"), ("b", "2")]⟩).unstaged_files
    ∧ (⟨"b", "modified", 1, 0⟩ : FileChange).path ≠ "a" :=
  ⟨⟨by decide, by decide⟩, by decide, by decide,
    claim_C4_amended ⟨[("b", "1")], [("b", "1")], [("a", "1"), ("b", "2")]⟩
      (by decide) "a" (by decide) (by decide) ⟨"b", "modified", 1, 0⟩ (by decide)⟩

/-- C5: for every repository state and every path, the status result
lists that path at most once in the staged list, at most once in the
unstaged list, and at most once in the untracked list. -/
theorem claim_C5 (s : RepoState) :
    ((get_workspace_status s).staged_files.map (·.path)).Nodup
    ∧ ((get_workspace_status s).unstaged_files.map (·.path)).Nodup
    ∧ (get_workspace_status s).untracked_files.Nodup := by
  have hsp : (statusPaths s).Nodup :=
    List.Nodup.filter _ (List.nodup_dedup _)
  refine ⟨?_, ?_, untracked_nodup_inv s⟩
  · rw [staged_eq]
    exact flatMap_stagedAdd_nodup s (statusPaths s) hsp
  · have hfin : (get_workspace_status s).unstaged_files
        = ((deltaPaths s).foldl (diffStep s)
            ((statusPaths s).foldl (statusStep s) ⟨[], [], []⟩)).unstaged := rfl
    rw [hfin]
    refine pass2_unstaged_nodup s _ _ ?_
    exact pass1_unstaged_nodup s (statusPaths s) ⟨[], [], []⟩ hsp (by simp)
      (by intro e he; simp at he)

/-- C6 as frozen is false on the code: in `statusAliased` the path
foo is not tracked in the last commit (the HEAD tree stores no file at
foo) and is absent from the index while the working tree shows a file
there, yet it is not reported only as untracked — the tracked check
resolves the subtree entry of foo/bar.txt, so foo is also pushed into
the unstaged list as modified. -/
theorem claim_C6_counterexample :
    statusAliased.headTree.lookup "foo" = none
    ∧ statusAliased.indexT.lookup "foo" = none
    ∧ (statusAliased.workdir.lookup "foo").isSome = true
    ∧ "foo" ∈ (get_workspace_status statusAliased).untracked_files
    ∧ (⟨"foo", "modified", 1, 0⟩ : FileChange)
        ∈ (get_workspace_status statusAliased).unstaged_files :=
  ⟨by decide, by decide, by decide, by decide, by decide⟩

/-- C6 (amended): if the index marks a path deleted (a file at the
path in HEAD's tree, none in the index) while the working tree shows a
file at that path, the path is reported as staged-deleted and
untracked, and not as unstaged; if the HEAD tree has neither a file at
the path nor a file strictly below it — `path_tracked_in_head` fails,
so the path also does not shadow a tracked directory — and the index
lacks it, it is reported only as untracked. -/
theorem claim_C6_amended (s : RepoState) (hn : NormPaths s) (p : String)
    (hi : s.indexT.lookup p = none) (hw : (s.workdir.lookup p).isSome = true) :
    ((s.headTree.lookup p).isSome = true →
      (⟨p, "deleted", 0, 1⟩ : FileChange) ∈ (get_workspace_status s).staged_files
      ∧ p ∈ (get_workspace_status s).untracked_files
      ∧ (∀ e ∈ (get_workspace_status s).unstaged_files, e.path ≠ p))
    ∧ (path_tracked_in_head s p = false →
      p ∈ (get_workspace_status s).untracked_files
      ∧ (∀ e ∈ (get_workspace_status s).staged_files, e.path ≠ p)
      ∧ (∀ e ∈ (get_workspace_status s).unstaged_files, e.path ≠ p)) := by
  have hwd : wdDelta s p = some .untracked := by
    unfold wdDelta
    rw [hi]
    cases hwl : s.workdir.lookup p with
    | none => rw [hwl] at hw; simp at hw
    | some w => rfl
  have hdp : p ∈ deltaPaths s := by
    unfold deltaPaths
    rw [List.mem_dedup]
    exact List.mem_append_right _ (mem_keys_of_lookup_isSome hw)
  have huntracked := untracked_mem_of_delta hwd hdp
  have hunst : shadowsHeadDir s p = false →
      ∀ e ∈ (get_workspace_status s).unstaged_files, e.path ≠ p := by
    intro hsh e he hep
    rcases (workspace_index_inv s hn).1 e he with ht | ht
    · rw [hep] at ht
      unfold hasPath at ht
      rw [hi] at ht
      simp at ht
    · rw [hep, hsh] at ht
      exact Bool.false_ne_true ht
  constructor
  · intro hh
    cases hhl : s.headTree.lookup p with
    | none => rw [hhl] at hh; simp at hh
    | some v =>
      have hsh : shadowsHeadDir s p = false := by
        unfold shadowsHeadDir hasPath
        rw [hhl]
        rfl
      refine ⟨?_, huntracked, hunst hsh⟩
      rw [staged_eq]
      refine List.mem_flatMap.mpr ⟨p, ?_, ?_⟩
      · unfold statusPaths
        rw [List.mem_filter]
        constructor
        · unfold allPaths
          rw [List.mem_dedup]
          exact List.mem_append_left _
            (List.mem_append_left _ (mem_keys_of_lookup_isSome (by rw [hhl]; rfl)))
        · unfold hasFlag
          have h3 : idxDel s p = true := by
            unfold idxDel hasPath
            rw [hhl, hi]
            simp
          rw [h3]
          simp
      · rw [stagedAdd_recreated hhl hi]
        simp
  · intro htrk
    have hte : treeHasEntry s.headTree p = false := by
      unfold path_tracked_in_head at htrk
      exact (Bool.or_eq_false_iff.mp htrk).2
    obtain ⟨hhb, hsub⟩ := Bool.or_eq_false_iff.mp (by
      unfold treeHasEntry at hte
      exact hte)
    have hsh : shadowsHeadDir s p = false := by
      unfold shadowsHeadDir
      rw [hsub]
      simp
    refine ⟨huntracked, ?_, hunst hsh⟩
    intro e he hep
    rw [staged_eq] at he
    rcases mem_of_mem_flatMap_stagedAdd he with ⟨q, _, heq⟩
    have hq := (stagedAdd_mem heq).1
    have hmem := (stagedAdd_mem heq).2.2
    have hqp : q = p := by rw [← hq, hep]
    rw [hqp, hhb] at hmem
    unfold hasPath at hmem
    rw [hi] at hmem
    simp at hmem

theorem claim_C6_amended_witness :
    (NormPaths ⟨[("a", "old")], [], [("a", "new"), ("c", "x")]⟩
      ∧ ([("a", "old")] : PathMap).lookup "a" = some "old"
      ∧ ([] : PathMap).lookup "a" = none
      ∧ (([("a", "new"), ("c", "x")] : PathMap).lookup "a").isSome = true
      ∧ path_tracked_in_head ⟨[("a", "old")], [], [("a", "new"), ("c", "x")]⟩ "c"
          = false)
    ∧ ((⟨"a", "deleted", 0, 1⟩ : FileChange)
        ∈ (get_workspace_status ⟨[("a", "old")], [], [("a", "new"), ("c", "x")]⟩).staged_files
      ∧ "a" ∈ (get_workspace_status
          ⟨[("a", "old")], [], [("a", "new"), ("c", "x")]⟩).untracked_files)
    ∧ "c" ∈ (get_workspace_status
        ⟨[("a", "old")], [], [("a", "new"), ("c", "x")]⟩).untracked_files :=
  ⟨⟨by decide, by decide, by decide, by decide, by decide⟩,
    (fun h => ⟨h.1, h.2.1⟩)
      ((claim_C6_amended ⟨[("a", "old")], [], [("a", "new"), ("c", "x")]⟩
        (by decide) "a" (by decide) (by decide)).1 (by decide)),
    ((claim_C6_amended ⟨[("a", "old")], [], [("a", "new"), ("c", "x")]⟩
        (by decide) "c" (by decide) (by decide)).2 (by decide)).1⟩

/-- C10: every change entry produced by the status classifier and by
the per-commit file listing carries placeholder additions/deletions
fixed by its change kind (added: (1,0); deleted: (0,1); any other
kind, including modified and renamed: (1,0)), never real line counts. -/
theorem claim_C10 :
    (∀ (s : RepoState) (e : FileChange),
      e ∈ (get_workspace_status s).staged_files
        ∨ e ∈ (get_workspace_status s).unstaged_files →
      (e.additions, e.deletions) = placeholderCounts e.status)
    ∧ ∀ (oldT newT : PathMap) (e : FileChange),
      e ∈ get_commit_files oldT newT →
      (e.additions, e.deletions) = placeholderCounts e.status :=
  ⟨fun s e he => workspace_placeholder_inv s e he,
    fun oldT newT e he => get_commit_files_placeholder oldT newT e he⟩

theorem claim_C10_witness :
    ((⟨"a", "added", 1, 0⟩ : FileChange)
        ∈ (get_workspace_status ⟨[], [("a", "1")], [("a", "1")]⟩).staged_files
      ∧ ((⟨"a", "added", 1, 0⟩ : FileChange).additions,
          (⟨"a", "added", 1, 0⟩ : FileChange).deletions)
        = placeholderCounts "added")
    ∧ ((⟨"b", "deleted", 0, 1⟩ : FileChange) ∈ get_commit_files [("b", "1")] []
      ∧ ((⟨"b", "deleted", 0, 1⟩ : FileChange).additions,
          (⟨"b", "deleted", 0, 1⟩ : FileChange).deletions)
        = placeholderCounts "deleted") :=
  ⟨⟨by decide,
    claim_C10.1 ⟨[], [("a", "1")], [("a", "1")]⟩ ⟨"a", "added", 1, 0⟩
      (Or.inl (by decide))⟩,
   ⟨by decide,
    claim_C10.2 [("b", "1")] [] ⟨"b", "deleted", 0, 1⟩ (by decide)⟩⟩

theorem le_foldr_max : ∀ (l : List Nat), ∀ x ∈ l, x ≤ l.foldr max 0 := by
  intro l
  induction l with
  | nil => intro x hx; simp at hx
  | cons a t ih =>
    intro x hx
    rcases List.mem_cons.mp hx with h | h
    · subst h; simp [Nat.le_max_left]
    · exact Nat.le_trans (ih x h) (by simp [Nat.le_max_right])

theorem freshOid_not_mem (g : Graph) : freshOid g ∉ goids g := by
  intro hmem
  have := le_foldr_max (goids g) _ hmem
  unfold freshOid at this
  omega

/-- C1 as frozen is false on the code: at `pullStagedOnly` a staged
change exists (index differs from HEAD's tree) yet pull proceeds and
merges, because the guard only counts index-to-working-tree deltas;
and at `pullUpToDateDirty` an unstaged change exists yet pull returns
"Already up to date", because the up-to-date check precedes the guard. -/
theorem claim_C1_counterexample :
    (stagedDirty pullStagedOnly = true
      ∧ dirtyCount pullStagedOnly = 0
      ∧ (pull_changes pullStagedOnly).1
          = Except.ok "Successfully pulled and merged (commit: 3)")
    ∧ (dirtyCount pullUpToDateDirty > 0
      ∧ pull_changes pullUpToDateDirty
          = (Except.ok "Already up to date", pullUpToDateDirty)) := by
  refine ⟨⟨by decide, by decide, ?_⟩, by decide, ?_⟩ <;> rfl

/-- C1 (amended): after a successful fetch, when the remote-tracking
commit differs from local HEAD and at least one unstaged change exists
(the index-to-working-tree diff is non-empty; untracked files and
staged-only changes do not count), pull fails with the
uncommitted-changes error and leaves HEAD, the index and the working
tree unchanged. -/
theorem claim_C1_amended (r : PullRepo) (hne : r.remoteOid ≠ r.localOid)
    (hd : dirtyCount r > 0) :
    pull_changes r
      = (Except.error "Cannot pull: You have uncommitted changes. Please commit or stash them first.", r) := by
  have h1 : (r.remoteOid == r.localOid) = false := by
    simp only [beq_eq_false_iff_ne, ne_eq]
    exact hne
  unfold pull_changes
  rw [h1]
  simp [hd]

theorem claim_C1_amended_witness :
    pull_changes pullDivergedDirty
      = (Except.error "Cannot pull: You have uncommitted changes. Please commit or stash them first.", pullDivergedDirty) :=
  claim_C1_amended pullDivergedDirty (by decide) (by decide)

/-- C2 as frozen is false on the code: `pullDivergedDirty` is a
post-fetch state with diverged histories and a conflict-free merge,
yet pull creates no commit at all — it fails on the dirty guard first. -/
theorem claim_C2_counterexample :
    ¬ Reaches pullDivergedDirty.commits pullDivergedDirty.remoteOid
        pullDivergedDirty.localOid
    ∧ ¬ Reaches pullDivergedDirty.commits pullDivergedDirty.localOid
        pullDivergedDirty.remoteOid
    ∧ pullDivergedDirty.mergeOk = true
    ∧ (pull_changes pullDivergedDirty).2.commits = pullDivergedDirty.commits
    ∧ (pull_changes pullDivergedDirty).1
        = Except.error "Cannot pull: You have uncommitted changes. Please commit or stash them first." := by
  have hw : WfG pullDivergedDirty.commits := by decide
  refine ⟨?_, ?_, by decide, by rfl, by rfl⟩
  · intro h
    exact absurd ((reach_iff hw _ _).mpr h) (by decide)
  · intro h
    exact absurd ((reach_iff hw _ _).mpr h) (by decide)

/-- C2 (amended): after a successful fetch, if local HEAD and the
remote-tracking commit have diverged (neither reaches the other in the
commit DAG), both commits are in the store, the working tree shows no
unstaged change, and the merge is conflict-free, then pull creates
exactly one new commit — a fresh oid appended to the store — whose two
parents are the prior local HEAD and the remote commit, with message
"Merge branch 'origin/branch'", and moves HEAD to it. -/
theorem claim_C2_amended (r : PullRepo) {pl pr : List Nat}
    (hne : r.remoteOid ≠ r.localOid)
    (hclean : dirtyCount r = 0)
    (hd1 : ¬ Reaches r.commits r.remoteOid r.localOid)
    (_hd2 : ¬ Reaches r.commits r.localOid r.remoteOid)
    (hr : r.commits.lookup r.remoteOid = some pr)
    (hl : r.commits.lookup r.localOid = some pl)
    (hm : r.mergeOk = true) :
    pull_changes r
      = (Except.ok ("Successfully pulled and merged (commit: "
            ++ toString (freshOid r.commits) ++ ")"),
          { r with
            localOid := freshOid r.commits,
            commits := r.commits
              ++ [(freshOid r.commits, [r.localOid, r.remoteOid])],
            msgs := r.msgs
              ++ [(freshOid r.commits,
                    "Merge branch 'origin/" ++ r.branch ++ "'")] })
      ∧ freshOid r.commits ∉ goids r.commits := by
  have h1 : (r.remoteOid == r.localOid) = false := by
    simp only [beq_eq_false_iff_ne, ne_eq]
    exact hne
  have hff : reach r.commits r.remoteOid r.localOid = false := by
    cases hc : reach r.commits r.remoteOid r.localOid with
    | false => rfl
    | true => exact absurd (reachesB_sound _ _ _ _ hc) hd1
  refine ⟨?_, freshOid_not_mem r.commits⟩
  unfold pull_changes
  rw [h1, hr, hl]
  simp [hclean, hff, hm]

theorem claim_C2_amended_witness :
    pull_changes pullDivergedClean
      = (Except.ok ("Successfully pulled and merged (commit: "
            ++ toString (freshOid pullDivergedClean.commits) ++ ")"),
          { pullDivergedClean with
            localOid := freshOid pullDivergedClean.commits,
            commits := pullDivergedClean.commits
              ++ [(freshOid pullDivergedClean.commits,
                    [pullDivergedClean.localOid, pullDivergedClean.remoteOid])],
            msgs := pullDivergedClean.msgs
              ++ [(freshOid pullDivergedClean.commits,
                    "Merge branch 'origin/" ++ pullDivergedClean.branch ++ "'")] })
      ∧ freshOid pullDivergedClean.commits ∉ goids pullDivergedClean.commits :=
  claim_C2_amended pullDivergedClean (by decide) (by decide)
    (fun h => absurd ((reach_iff (by decide) _ _).mpr h) (by decide))
    (fun h => absurd ((reach_iff (by decide) _ _).mpr h) (by decide))
    (by rfl) (by rfl) (by decide)

/-- C3: the claim matches the spec and the stated intent of the code
(comment "快进合并", log "fast-forward success"), but the code is a
slip: at `pullFastForward` — a clean on-branch state whose local HEAD
commit 0 is a strict ancestor of the fetched remote commit 1 — the
source runs `repo.find_reference("HEAD").set_target(remote_oid)`; HEAD
on a branch is a symbolic reference, and libgit2's
`git_reference_set_target` requires a direct reference, so pull fails
with "cannot set OID on symbolic reference" and HEAD stays at commit
0 instead of becoming the remote commit.  The last conjunct shows the
same state with a detached (direct) HEAD fast-forwards exactly as the
claim describes, confirming the guard is what breaks. -/
theorem claim_C3 :
    Reaches pullFastForward.commits pullFastForward.remoteOid
        pullFastForward.localOid
    ∧ pullFastForward.localOid ≠ pullFastForward.remoteOid
    ∧ dirtyCount pullFastForward = 0
    ∧ stagedDirty pullFastForward = false
    ∧ pull_changes pullFastForward
        = (Except.error "Failed to fast-forward: cannot set OID on symbolic reference",
            pullFastForward)
    ∧ pull_changes pullFastForwardDetached
        = (Except.ok "Successfully pulled (fast-forward)",
            { pullFastForwardDetached with
                localOid := pullFastForwardDetached.remoteOid }) :=
  ⟨(reach_iff (by decide) _ _).mp (by decide),
    by decide, by decide, by decide, by rfl, by rfl⟩

/-- C7: with no upstream relationship (or no resolvable branch target)
the ahead/behind computation yields (0, 0) — and stays a total
function, mirroring the source where a missing upstream falls through
an `if let` instead of erring; with an upstream it returns the number
of store commits reachable from the local tip and not the
remote-tracking tip, and conversely, where the executable reachability
test agrees with DAG reachability. -/
theorem claim_C7 (r : InfoRepo) (hw : WfG r.commits) :
    (r.upstreamTarget = none → ahead_behind r = (0, 0))
    ∧ (r.branchTarget = none → ahead_behind r = (0, 0))
    ∧ (∀ l u, r.branchTarget = some l → r.upstreamTarget = some u →
        (ahead_behind r
          = (((goids r.commits).filter fun c =>
                reach r.commits l c && !(reach r.commits u c)).length,
             ((goids r.commits).filter fun c =>
                reach r.commits u c && !(reach r.commits l c)).length))
        ∧ (∀ c, (reach r.commits l c && !(reach r.commits u c)) = true
              ↔ (Reaches r.commits l c ∧ ¬ Reaches r.commits u c))
        ∧ (∀ c, (reach r.commits u c && !(reach r.commits l c)) = true
              ↔ (Reaches r.commits u c ∧ ¬ Reaches r.commits l c))) := by
  refine ⟨?_, ?_, ?_⟩
  · intro hu
    unfold ahead_behind
    rw [hu]
    cases r.branchTarget <;> rfl
  · intro hb
    unfold ahead_behind
    rw [hb]
  · intro l u hb hu
    refine ⟨?_, ?_, ?_⟩
    · unfold ahead_behind
      rw [hb, hu]
      show graph_ahead_behind r.commits l u = _
      unfold graph_ahead_behind
      rw [List.countP_eq_length_filter, List.countP_eq_length_filter]
    · intro c
      rw [Bool.and_eq_true, Bool.not_eq_true', ← Bool.not_eq_true (reach r.commits u c)]
      rw [reach_iff hw, reach_iff hw]
    · intro c
      rw [Bool.and_eq_true, Bool.not_eq_true', ← Bool.not_eq_true (reach r.commits l c)]
      rw [reach_iff hw, reach_iff hw]

theorem claim_C7_witness :
    WfG infoNoUpstream.commits
    ∧ infoNoUpstream.upstreamTarget = none
    ∧ ahead_behind infoNoUpstream = (0, 0)
    ∧ ahead_behind infoDiverged
        = (((goids infoDiverged.commits).filter fun c =>
              reach infoDiverged.commits 3 c && !(reach infoDiverged.commits 2 c)).length,
           ((goids infoDiverged.commits).filter fun c =>
              reach infoDiverged.commits 2 c && !(reach infoDiverged.commits 3 c)).length)
    ∧ ahead_behind infoDiverged = (1, 1) :=
  ⟨by decide, rfl, (claim_C7 infoNoUpstream (by decide)).1 rfl,
    ((claim_C7 infoDiverged (by decide)).2.2 3 2 rfl rfl).1, by decide⟩

/-- C9: the upstream relationship is established only after the push
succeeded and only when none exists; a failed push changes no
upstream; a successful push with an existing upstream leaves it
unchanged, so repeating a successful push is idempotent on the
upstream side effect. -/
theorem claim_C9 (r : PushRepo) :
    (r.pushOk = false → push_changes r = (Except.error "Failed to push", r))
    ∧ (∀ u, r.pushOk = true → r.upstream = some u →
        (push_changes r).2 = r
        ∧ (push_changes r).1
            = Except.ok ("Successfully pushed to origin/" ++ r.branch))
    ∧ (r.pushOk = true → r.upstream = none → r.branchFound = true →
        r.setUpstreamOk = true →
        (push_changes r).2.upstream = some ("origin/" ++ r.branch)
        ∧ (push_changes r).1
            = Except.ok ("Successfully pushed to origin/" ++ r.branch))
    ∧ (r.pushOk = true →
        (push_changes (push_changes r).2).2.upstream
          = (push_changes r).2.upstream) := by
  refine ⟨?_, ?_, ?_, ?_⟩
  · intro h
    unfold push_changes
    rw [h]
    rfl
  · intro u h hu
    unfold push_changes
    rw [h, hu]
    cases r.branchFound <;> simp
  · intro h hu hb hs
    unfold push_changes
    rw [h, hu, hb, hs]
    simp
  · intro h
    cases hb : r.branchFound
    · simp [push_changes, h, hb]
    · cases hu : r.upstream with
      | some u => simp [push_changes, h, hb, hu]
      | none =>
        cases hs : r.setUpstreamOk
        · simp [push_changes, h, hb, hu, hs]
        · simp [push_changes, h, hb, hu, hs]

theorem claim_C9_witness :
    push_changes ⟨"main", none, true, true, true⟩
      = (Except.ok "Successfully pushed to origin/main",
          ⟨"main", some "origin/main", true, true, true⟩)
    ∧ (push_changes ⟨"main", none, true, true, true⟩).2.upstream
        = some "origin/main"
    ∧ push_changes ⟨"main", some "origin/main", true, false, true⟩
        = (Except.error "Failed to push", ⟨"main", some "origin/main", true, false, true⟩) :=
  ⟨by rfl,
    ((claim_C9 ⟨"main", none, true, true, true⟩).2.2.1 rfl rfl rfl rfl).1,
    (claim_C9 ⟨"main", some "origin/main", true, false, true⟩).1 rfl⟩

theorem findStash_none (q : String) :
    ∀ (l : List (String × String)) (i : Nat),
      (∀ e ∈ l, stashMatches e.1 q = false) → findStash q l i = none := by
  intro l
  induction l with
  | nil => intro i _; rfl
  | cons e t ih =>
    intro i h
    cases e with
    | mk oid msg =>
      unfold findStash
      rw [h (oid, msg) (List.mem_cons_self _ _)]
      simp only [Bool.false_eq_true, if_false]
      exact ih (i + 1) fun e he => h e (List.mem_cons_of_mem _ he)

theorem findStash_first (q oid msg : String) (rest : List (String × String)) :
    ∀ (pre : List (String × String)) (i : Nat),
      (∀ e ∈ pre, stashMatches e.1 q = false) → stashMatches oid q = true →
      findStash q (pre ++ (oid, msg) :: rest) i = some (i + pre.length, oid, msg) := by
  intro pre
  induction pre with
  | nil =>
    intro i _ hm
    rw [List.nil_append]
    unfold findStash
    rw [hm]
    simp
  | cons e t ih =>
    intro i h hm
    cases e with
    | mk o m
    =>
      rw [List.cons_append]
      unfold findStash
      rw [h (o, m) (List.mem_cons_self _ _)]
      simp only [Bool.false_eq_true, if_false]
      rw [ih (i + 1) (fun e he => h e (List.mem_cons_of_mem _ he)) hm]
      have : i + 1 + t.length = i + (t.length + 1) := by omega
      rw [this]
      rfl

/-- C8 as frozen is false on the code: with stashes "aab" and "aac"
the query "aa" is an ambiguous prefix (it matches both), yet
`apply_stash` does not fail with the not-found error — it resolves to
the first match, index 0. -/
theorem claim_C8_counterexample :
    stashMatches "aab" "aa" = true
    ∧ stashMatches "aac" "aa" = true
    ∧ apply_stash [("aab", "m1"), ("aac", "m2")] "aa"
        = Except.ok (0, "aab", "m1") :=
  ⟨by decide, by decide, by rfl⟩

/-- C8 (amended): `apply_stash` resolves the query by scanning the
ordered stash list and selecting the FIRST entry whose id equals the
query or has it as a prefix — an ambiguous prefix resolves to the
earliest match instead of failing; only when no stash matches does it
fail, with an error reporting the full set of available stash ids and
messages. -/
theorem claim_C8_amended (stashes : List (String × String)) (q : String) :
    ((∀ e ∈ stashes, stashMatches e.1 q = false) →
      apply_stash stashes q = Except.error (stashNotFoundMsg stashes q))
    ∧ (∀ pre oid msg rest, stashes = pre ++ (oid, msg) :: rest →
        (∀ e ∈ pre, stashMatches e.1 q = false) →
        stashMatches oid q = true →
        apply_stash stashes q = Except.ok (pre.length, oid, msg)) := by
  constructor
  · intro h
    unfold apply_stash
    rw [findStash_none q stashes 0 h]
  · intro pre oid msg rest hs hpre hm
    unfold apply_stash
    rw [hs, findStash_first q oid msg rest pre 0 hpre hm]
    simp

theorem claim_C8_amended_witness :
    apply_stash [("aab", "m1"), ("aac", "m2")] "aac"
      = Except.ok (1, "aac", "m2") :=
  (claim_C8_amended [("aab", "m1"), ("aac", "m2")] "aac").2
    [("aab", "m1")] "aac" "m2" [] rfl (by decide) (by decide)

end GitLite

